import Mathlib

/-!
Shallow embedding of `src/inputMethod.py` (class `PinyinInputMethod`), a
pinyin-to-character lookup engine, together with proofs of the specified
properties.

Modelling conventions:
* A Python string is modelled as `List Char` when it is iterated scalar by
  scalar (pinyin syllables), and as `String` when it is only stored and
  compared (the character field).
* The two `defaultdict(list)` index mappings are modelled as association
  lists `List (K × List α)` in key-insertion order; `appendAt` models
  `d[k].append(v)` (list created on first use) and `getD` models
  `d.get(k, [])`.
* The outcome of reading and decoding one physical line of the JSONL file
  (strip, skip-if-blank, strip trailing comma, `json.loads`) is modelled by
  `ParsedLine`: `blank` for a line skipped as empty, `record r` for a line
  that decodes to a record carrying `char`, `pinyin` and optionally
  `frequency`, and `malformed` for a line on which `json.loads` raises
  `json.JSONDecodeError`.
* The file itself is `Option (List ParsedLine)`: `none` models
  `FileNotFoundError` on `open`, `some lines` the sequence of lines.
* The Python `list.sort(key=...)` call is a stable ascending sort; it is
  modelled by `List.mergeSort`, which is stable and sorts ascending.
-/

namespace InputMethod

/-- The `tone_map` dictionary of `_remove_tone` (src lines 37-46), as an
association list in source order. -/
def tone_map : List (Char × Char) :=
  [('ā', 'a'), ('á', 'a'), ('ǎ', 'a'), ('à', 'a'),
   ('ē', 'e'), ('é', 'e'), ('ě', 'e'), ('è', 'e'),
   ('ī', 'i'), ('í', 'i'), ('ǐ', 'i'), ('ì', 'i'),
   ('ō', 'o'), ('ó', 'o'), ('ǒ', 'o'), ('ò', 'o'),
   ('ū', 'u'), ('ú', 'u'), ('ǔ', 'u'), ('ù', 'u'),
   ('ǖ', 'v'), ('ǘ', 'v'), ('ǚ', 'v'), ('ǜ', 'v'), ('ü', 'v'),
   ('ɡ', 'g'),
   ('ń', 'n'), ('ň', 'n'), ('ǹ', 'n')]

/-- `tone_map.get(char, char)`: the image of one scalar under the tone map,
defaulting to the scalar itself. -/
def toneApply (c : Char) : Char :=
  (tone_map.lookup c).getD c

/-- `_remove_tone` (src lines 27-50): builds the result by appending the
image of each scalar in order, starting from the empty string. -/
def remove_tone (pinyin : List Char) : List Char :=
  pinyin.foldl (fun result c => result ++ [toneApply c]) []

/-- One decoded JSONL record: the fields `_load_data` consumes.
`frequency` is `none` when the key is absent (`data.get('frequency', 999)`
then yields the sentinel). Other fields are passed through opaquely inside
`char_data` and play no role in lookup, so they are not modelled. -/
structure RawRecord where
  char : String
  pinyin : List (List Char)
  frequency : Option Int
  deriving Repr, DecidableEq

/-- `data.get('frequency', 999)`. -/
def freqOf (r : RawRecord) : Int :=
  r.frequency.getD 999

/-- One posting stored in an index list. In the tone-sensitive index the
stored dict has keys `char` and `frequency` (`pinyin := none` here); in the
tone-free index it additionally has the matched toned syllable
(`pinyin := some py`). -/
structure Entry where
  char : String
  frequency : Int
  pinyin : Option (List Char)
  deriving Repr, DecidableEq

/-- The outcome of reading and structurally decoding one line of the JSONL
file (strip, blank-skip, trailing-comma strip, `json.loads`). -/
inductive ParsedLine where
  | blank : ParsedLine
  | record : RawRecord → ParsedLine
  | malformed : ParsedLine
  deriving Repr, DecidableEq

/-- `d[k].append(v)` on a `defaultdict(list)`: append `v` to the list at
`k`, creating the key (at the end, insertion order) on first use. -/
def appendAt {K α : Type} [DecidableEq K] :
    List (K × List α) → K → α → List (K × List α)
  | [], k, v => [(k, [v])]
  | (k', vs) :: rest, k, v =>
      if k' = k then (k', vs ++ [v]) :: rest else (k', vs) :: appendAt rest k v

/-- `d.get(k, [])`: the list stored at `k`, or `[]` when the key is absent. -/
def getD {K α : Type} [DecidableEq K] : List (K × List α) → K → List α
  | [], _ => []
  | (k', vs) :: rest, k => if k' = k then vs else getD rest k

/-- `d[k] = v` on a plain dict: overwrite the value at `k`, creating the
key (insertion order) when absent. -/
def setAt {K α : Type} [DecidableEq K] : List (K × α) → K → α → List (K × α)
  | [], k, v => [(k, v)]
  | (k', v') :: rest, k, v =>
      if k' = k then (k', v) :: rest else (k', v') :: setAt rest k v

/-- The three mappings held by a `PinyinInputMethod` instance
(src lines 22-24). -/
structure LoadState where
  pinyin_dict : List (List Char × List Entry)
  pinyin_dict_no_tone : List (List Char × List Entry)
  char_data : List (String × RawRecord)
  deriving Repr, DecidableEq

/-- The state right after `__init__` initialises the three empty mappings. -/
def initState : LoadState :=
  { pinyin_dict := [], pinyin_dict_no_tone := [], char_data := [] }

/-- The body of the inner `for py in pinyins` loop (src lines 83-96):
append to both indexes under the verbatim and the tone-free key. -/
def ingestPy (s : LoadState) (char : String) (frequency : Int)
    (py : List Char) : LoadState :=
  { s with
    pinyin_dict := appendAt s.pinyin_dict py
      { char := char, frequency := frequency, pinyin := none },
    pinyin_dict_no_tone := appendAt s.pinyin_dict_no_tone (remove_tone py)
      { char := char, frequency := frequency, pinyin := some py } }

/-- Processing of one successfully decoded record (src lines 75-98):
store it in `char_data`, then index every syllable. -/
def ingest (s : LoadState) (r : RawRecord) : LoadState :=
  r.pinyin.foldl (fun s' py => ingestPy s' r.char (freqOf r) py)
    { s with char_data := setAt s.char_data r.char r }

/-- Comparison used by the frequency sort: `key=lambda x: x['frequency']`
ascending. -/
def freqLE (a b : Entry) : Bool :=
  a.frequency ≤ b.frequency

/-- The two sorting loops after ingestion (src lines 100-105): every
posting list of both mappings is sorted ascending by frequency with a
stable sort. -/
def sortState (s : LoadState) : LoadState :=
  { s with
    pinyin_dict := s.pinyin_dict.map fun kv => (kv.1, kv.2.mergeSort freqLE),
    pinyin_dict_no_tone :=
      s.pinyin_dict_no_tone.map fun kv => (kv.1, kv.2.mergeSort freqLE) }

/-- The `for line in f` loop of `_load_data` (src lines 64-105) run from
state `s`: blank lines are skipped, a decoded record is ingested, and a
malformed line raises `json.JSONDecodeError`, which escapes the loop (so
no later line is processed and the two sorting loops are skipped) and is
caught by the `except json.JSONDecodeError` clause, which only prints —
leaving the state as accumulated so far. When every line is processed the
sorting loops run. -/
def processLines (s : LoadState) : List ParsedLine → LoadState
  | [] => sortState s
  | .blank :: rest => processLines s rest
  | .record r :: rest => processLines (ingest s r) rest
  | .malformed :: _ => s

/-- `_load_data` (src lines 52-114) as run by `__init__` on the empty
mappings: `none` models `FileNotFoundError` on `open`, caught by the
`except FileNotFoundError` clause which only prints, leaving the mappings
empty; `some lines` runs the ingestion loop. In every case the constructor
returns normally with the resulting state. -/
def loadData : Option (List ParsedLine) → LoadState
  | none => initState
  | some lines => processLines initState lines

/-- `get_candidates_with_info` (src lines 136-151). -/
def get_candidates_with_info (s : LoadState) (pinyin : List Char)
    (with_tone : Bool) : List Entry :=
  if with_tone then
    getD s.pinyin_dict pinyin
  else
    getD s.pinyin_dict_no_tone (remove_tone pinyin)

/-- `get_candidates` (src lines 116-134). -/
def get_candidates (s : LoadState) (pinyin : List Char)
    (with_tone : Bool) : List String :=
  let candidates :=
    if with_tone then
      getD s.pinyin_dict pinyin
    else
      getD s.pinyin_dict_no_tone (remove_tone pinyin)
  candidates.map Entry.char

/-- The records carried by the decodable lines of a file, in file order. -/
def recordsOf (lines : List ParsedLine) : List RawRecord :=
  lines.filterMap fun l =>
    match l with
    | .record r => some r
    | _ => none

/-- The file decodes cleanly: no line raises `json.JSONDecodeError`. -/
def noMalformed (lines : List ParsedLine) : Prop :=
  ParsedLine.malformed ∉ lines

instance (lines : List ParsedLine) : Decidable (noMalformed lines) :=
  inferInstanceAs (Decidable (ParsedLine.malformed ∉ lines))

/-- The ingestion loop run over a record sequence, without the final
sorting passes: every posting list is in raw insertion order. Factored
out of `processLines` for stating in which order records were ingested. -/
def buildState (recs : List RawRecord) : LoadState :=
  recs.foldl ingest initState

/-- `defaultdict.__getitem__` (`d[k]`): returns the stored list, and —
unlike `d.get(k, [])` — inserts an empty list under an absent key,
mutating the mapping. The lookup methods deliberately avoid this. -/
def dict_getitem {K α : Type} [DecidableEq K] :
    List (K × List α) → K → List α × List (K × List α)
  | [], k => ([], [(k, [])])
  | (k', vs) :: rest, k =>
      if k' = k then (vs, (k', vs) :: rest)
      else
        let r := dict_getitem rest k
        (r.1, (k', vs) :: r.2)

/-- `d.get(k, [])` in state-passing form: the read the lookup methods
actually perform, which never mutates the mapping. -/
def dict_get {K α : Type} [DecidableEq K] (d : List (K × List α)) (k : K) :
    List α × List (K × List α) :=
  (getD d k, d)

/-- `get_candidates` in state-passing form: the pair of its return value
and the state of the instance after the call (the method only performs
`.get` reads). -/
def get_candidatesS (s : LoadState) (pinyin : List Char)
    (with_tone : Bool) : List String × LoadState :=
  if with_tone then
    let r := dict_get s.pinyin_dict pinyin
    (r.1.map Entry.char, { s with pinyin_dict := r.2 })
  else
    let r := dict_get s.pinyin_dict_no_tone (remove_tone pinyin)
    (r.1.map Entry.char, { s with pinyin_dict_no_tone := r.2 })

/-- `get_candidates_with_info` in state-passing form. -/
def get_candidates_with_infoS (s : LoadState) (pinyin : List Char)
    (with_tone : Bool) : List Entry × LoadState :=
  if with_tone then
    let r := dict_get s.pinyin_dict pinyin
    (r.1, { s with pinyin_dict := r.2 })
  else
    let r := dict_get s.pinyin_dict_no_tone (remove_tone pinyin)
    (r.1, { s with pinyin_dict_no_tone := r.2 })

/-! ### Helper lemmas about the normalizer -/

theorem foldl_append_singleton {α β : Type} (f : α → β) :
    ∀ (p : List α) (acc : List β),
      p.foldl (fun result c => result ++ [f c]) acc = acc ++ p.map f
  | [], acc => by simp
  | c :: rest, acc => by
      rw [List.foldl_cons, foldl_append_singleton f rest, List.map_cons]
      simp

/-- The string-building loop of `_remove_tone` applies `toneApply` to each
scalar independently. -/
theorem remove_tone_eq_map (p : List Char) :
    remove_tone p = p.map toneApply := by
  simpa using foldl_append_singleton toneApply p []

theorem lookup_eq_none_of_not_mem_keys {l : List (Char × Char)} {c : Char}
    (h : c ∉ l.map Prod.fst) : l.lookup c = none := by
  induction l with
  | nil => rfl
  | cons kv rest ih =>
    obtain ⟨k, v⟩ := kv
    simp only [List.map_cons, List.mem_cons, not_or] at h
    have hck : (c == k) = false := by
      simpa [beq_iff_eq] using h.1
    simp [List.lookup, hck, ih h.2]

/-- A scalar outside the key set of the tone map passes through
unchanged. -/
theorem toneApply_eq_self_of_not_mem {c : Char}
    (h : c ∉ tone_map.map Prod.fst) : toneApply c = c := by
  simp [toneApply, lookup_eq_none_of_not_mem_keys h]

theorem toneApply_idem (c : Char) : toneApply (toneApply c) = toneApply c := by
  by_cases hc : c ∈ tone_map.map Prod.fst
  · exact (by decide :
      ∀ c ∈ tone_map.map Prod.fst, toneApply (toneApply c) = toneApply c) c hc
  · rw [toneApply_eq_self_of_not_mem hc, toneApply_eq_self_of_not_mem hc]

theorem getD_eq_nil_of_not_mem_keys {K α : Type} [DecidableEq K]
    {d : List (K × List α)} {k : K} (h : k ∉ d.map Prod.fst) :
    getD d k = [] := by
  induction d with
  | nil => rfl
  | cons kv rest ih =>
    obtain ⟨k', vs⟩ := kv
    simp only [List.map_cons, List.mem_cons, not_or] at h
    have hne : ¬ k' = k := fun e => h.1 e.symm
    simp [getD, hne, ih h.2]

/-! ### Helper lemmas about the index build -/

theorem mem_getD_appendAt {K α : Type} [DecidableEq K]
    (d : List (K × List α)) (k k' : K) (v e : α) :
    e ∈ getD (appendAt d k v) k' ↔ e ∈ getD d k' ∨ (k = k' ∧ e = v) := by
  induction d with
  | nil =>
    by_cases h : k = k' <;> simp [appendAt, getD, h]
  | cons kv rest ih =>
    obtain ⟨k0, vs⟩ := kv
    simp only [appendAt]
    split_ifs with h0
    · subst h0
      simp only [getD]
      split_ifs with h1
      · subst h1; simp
      · simp [h1]
    · simp only [getD]
      split_ifs with h1
      · subst h1
        have : ¬ k = k0 := fun e => h0 e.symm
        simp [this]
      · simp [ih]

theorem mem_pd_ingestPy (s : LoadState) (c : String) (f : Int)
    (py k : List Char) (e : Entry) :
    e ∈ getD (ingestPy s c f py).pinyin_dict k
    ↔ e ∈ getD s.pinyin_dict k
      ∨ (py = k ∧ e = { char := c, frequency := f, pinyin := none }) := by
  simp [ingestPy, mem_getD_appendAt]

theorem mem_nt_ingestPy (s : LoadState) (c : String) (f : Int)
    (py k : List Char) (e : Entry) :
    e ∈ getD (ingestPy s c f py).pinyin_dict_no_tone k
    ↔ e ∈ getD s.pinyin_dict_no_tone k
      ∨ (remove_tone py = k
          ∧ e = { char := c, frequency := f, pinyin := some py }) := by
  simp [ingestPy, mem_getD_appendAt]

theorem mem_pd_foldPy (c : String) (f : Int) (k : List Char) (e : Entry) :
    ∀ (pys : List (List Char)) (s : LoadState),
      e ∈ getD (pys.foldl (fun s' py => ingestPy s' c f py) s).pinyin_dict k
      ↔ e ∈ getD s.pinyin_dict k
        ∨ (k ∈ pys ∧ e = { char := c, frequency := f, pinyin := none })
  | [], s => by simp
  | py :: rest, s => by
      rw [List.foldl_cons, mem_pd_foldPy c f k e rest, mem_pd_ingestPy]
      constructor
      · rintro ((h | ⟨rfl, rfl⟩) | ⟨hm, rfl⟩)
        · exact Or.inl h
        · exact Or.inr ⟨List.mem_cons_self _ _, rfl⟩
        · exact Or.inr ⟨List.mem_cons_of_mem _ hm, rfl⟩
      · rintro (h | ⟨hm, rfl⟩)
        · exact Or.inl (Or.inl h)
        · rcases List.mem_cons.mp hm with h' | h'
          · exact Or.inl (Or.inr ⟨h'.symm, rfl⟩)
          · exact Or.inr ⟨h', rfl⟩

theorem mem_nt_foldPy (c : String) (f : Int) (k : List Char) (e : Entry) :
    ∀ (pys : List (List Char)) (s : LoadState),
      e ∈ getD (pys.foldl (fun s' py => ingestPy s' c f py) s).pinyin_dict_no_tone k
      ↔ e ∈ getD s.pinyin_dict_no_tone k
        ∨ ∃ py ∈ pys, remove_tone py = k
            ∧ e = { char := c, frequency := f, pinyin := some py }
  | [], s => by simp
  | py :: rest, s => by
      rw [List.foldl_cons, mem_nt_foldPy c f k e rest, mem_nt_ingestPy]
      constructor
      · rintro ((h | ⟨hk, rfl⟩) | ⟨py', hm, hk, rfl⟩)
        · exact Or.inl h
        · exact Or.inr ⟨py, List.mem_cons_self _ _, hk, rfl⟩
        · exact Or.inr ⟨py', List.mem_cons_of_mem _ hm, hk, rfl⟩
      · rintro (h | ⟨py', hm, hk, rfl⟩)
        · exact Or.inl (Or.inl h)
        · rcases List.mem_cons.mp hm with h' | h'
          · subst h'; exact Or.inl (Or.inr ⟨hk, rfl⟩)
          · exact Or.inr ⟨py', h', hk, rfl⟩

theorem mem_pd_ingest (s : LoadState) (r : RawRecord) (k : List Char)
    (e : Entry) :
    e ∈ getD (ingest s r).pinyin_dict k
    ↔ e ∈ getD s.pinyin_dict k
      ∨ (k ∈ r.pinyin
          ∧ e = { char := r.char, frequency := freqOf r, pinyin := none }) := by
  rw [ingest, mem_pd_foldPy]

theorem mem_nt_ingest (s : LoadState) (r : RawRecord) (k : List Char)
    (e : Entry) :
    e ∈ getD (ingest s r).pinyin_dict_no_tone k
    ↔ e ∈ getD s.pinyin_dict_no_tone k
      ∨ ∃ py ∈ r.pinyin, remove_tone py = k
          ∧ e = { char := r.char, frequency := freqOf r, pinyin := some py } := by
  rw [ingest, mem_nt_foldPy]

theorem mem_pd_foldl_ingest (k : List Char) (e : Entry) :
    ∀ (recs : List RawRecord) (s : LoadState),
      e ∈ getD (recs.foldl ingest s).pinyin_dict k
      ↔ e ∈ getD s.pinyin_dict k
        ∨ ∃ r ∈ recs, k ∈ r.pinyin
            ∧ e = { char := r.char, frequency := freqOf r, pinyin := none }
  | [], s => by simp
  | r :: rest, s => by
      rw [List.foldl_cons, mem_pd_foldl_ingest k e rest, mem_pd_ingest]
      constructor
      · rintro ((h | ⟨hk, rfl⟩) | ⟨r', hm, hk, rfl⟩)
        · exact Or.inl h
        · exact Or.inr ⟨r, List.mem_cons_self _ _, hk, rfl⟩
        · exact Or.inr ⟨r', List.mem_cons_of_mem _ hm, hk, rfl⟩
      · rintro (h | ⟨r', hm, hk, rfl⟩)
        · exact Or.inl (Or.inl h)
        · rcases List.mem_cons.mp hm with h' | h'
          · subst h'; exact Or.inl (Or.inr ⟨hk, rfl⟩)
          · exact Or.inr ⟨r', h', hk, rfl⟩

theorem mem_nt_foldl_ingest (k : List Char) (e : Entry) :
    ∀ (recs : List RawRecord) (s : LoadState),
      e ∈ getD (recs.foldl ingest s).pinyin_dict_no_tone k
      ↔ e ∈ getD s.pinyin_dict_no_tone k
        ∨ ∃ r ∈ recs, ∃ py ∈ r.pinyin, remove_tone py = k
            ∧ e = { char := r.char, frequency := freqOf r, pinyin := some py }
  | [], s => by simp
  | r :: rest, s => by
      rw [List.foldl_cons, mem_nt_foldl_ingest k e rest, mem_nt_ingest]
      constructor
      · rintro ((h | ⟨py, hpy, hk, rfl⟩) | ⟨r', hm, py, hpy, hk, rfl⟩)
        · exact Or.inl h
        · exact Or.inr ⟨r, List.mem_cons_self _ _, py, hpy, hk, rfl⟩
        · exact Or.inr ⟨r', List.mem_cons_of_mem _ hm, py, hpy, hk, rfl⟩
      · rintro (h | ⟨r', hm, py, hpy, hk, rfl⟩)
        · exact Or.inl (Or.inl h)
        · rcases List.mem_cons.mp hm with h' | h'
          · subst h'; exact Or.inl (Or.inr ⟨py, hpy, hk, rfl⟩)
          · exact Or.inr ⟨r', h', py, hpy, hk, rfl⟩

/-- Membership characterization of the tone-sensitive index after
ingestion. -/
theorem mem_pd_build (recs : List RawRecord) (k : List Char) (e : Entry) :
    e ∈ getD (buildState recs).pinyin_dict k
    ↔ ∃ r ∈ recs, k ∈ r.pinyin
        ∧ e = { char := r.char, frequency := freqOf r, pinyin := none } := by
  rw [buildState, mem_pd_foldl_ingest]
  simp [initState, getD]

/-- Membership characterization of the tone-free index after ingestion. -/
theorem mem_nt_build (recs : List RawRecord) (k : List Char) (e : Entry) :
    e ∈ getD (buildState recs).pinyin_dict_no_tone k
    ↔ ∃ r ∈ recs, ∃ py ∈ r.pinyin, remove_tone py = k
        ∧ e = { char := r.char, frequency := freqOf r, pinyin := some py } := by
  rw [buildState, mem_nt_foldl_ingest]
  simp [initState, getD]

theorem getD_mapValues {K α : Type} [DecidableEq K]
    (g : List α → List α) (hg : g [] = [])
    (d : List (K × List α)) (k : K) :
    getD (d.map fun kv => (kv.1, g kv.2)) k = g (getD d k) := by
  induction d with
  | nil => simp [getD, hg]
  | cons kv rest ih =>
    obtain ⟨k0, vs⟩ := kv
    by_cases h : k0 = k <;> simp [getD, h, ih]

theorem getD_sortState_pd (s : LoadState) (k : List Char) :
    getD (sortState s).pinyin_dict k = (getD s.pinyin_dict k).mergeSort freqLE := by
  exact getD_mapValues (fun l => l.mergeSort freqLE) List.mergeSort_nil s.pinyin_dict k

theorem getD_sortState_nt (s : LoadState) (k : List Char) :
    getD (sortState s).pinyin_dict_no_tone k
    = (getD s.pinyin_dict_no_tone k).mergeSort freqLE := by
  exact getD_mapValues (fun l => l.mergeSort freqLE) List.mergeSort_nil s.pinyin_dict_no_tone k

theorem processLines_eq_of_noMalformed :
    ∀ (lines : List ParsedLine) (s : LoadState), noMalformed lines →
      processLines s lines = sortState ((recordsOf lines).foldl ingest s)
  | [], s, _ => by simp [processLines, recordsOf]
  | .blank :: rest, s, h => by
      rw [processLines,
        processLines_eq_of_noMalformed rest s (by simpa [noMalformed] using h)]
      simp [recordsOf]
  | .record r :: rest, s, h => by
      rw [processLines, processLines_eq_of_noMalformed rest (ingest s r)
        (by simpa [noMalformed] using h)]
      simp [recordsOf]
  | .malformed :: _, _, h => absurd (List.mem_cons_self _ _) h

/-- A file that decodes cleanly builds the sorted index over its records. -/
theorem loadData_eq_of_noMalformed (lines : List ParsedLine)
    (h : noMalformed lines) :
    loadData (some lines) = sortState (buildState (recordsOf lines)) :=
  processLines_eq_of_noMalformed lines initState h

theorem mem_recordsOf_of_mem {lines : List ParsedLine} {r : RawRecord}
    (h : ParsedLine.record r ∈ lines) : r ∈ recordsOf lines := by
  rw [recordsOf, List.mem_filterMap]
  exact ⟨ParsedLine.record r, h, rfl⟩

/-! ### Claim theorems: the tone normalizer -/

/-- C3: `_remove_tone` maps each scalar independently through the tone
table — toned a/e/i/o/u variants to the bare vowel, toned and bare ü to
`v`, IPA ɡ to `g`, toned n variants to `n`, everything else unchanged —
and the output is the concatenation of the mapped scalars in order, of
the same length in scalars as the input; it is a total function. -/
theorem remove_tone_scalarwise :
    (∀ p : List Char, remove_tone p = p.map toneApply)
    ∧ (∀ p : List Char, (remove_tone p).length = p.length)
    ∧ (∀ c ∈ ['ā', 'á', 'ǎ', 'à'], toneApply c = 'a')
    ∧ (∀ c ∈ ['ē', 'é', 'ě', 'è'], toneApply c = 'e')
    ∧ (∀ c ∈ ['ī', 'í', 'ǐ', 'ì'], toneApply c = 'i')
    ∧ (∀ c ∈ ['ō', 'ó', 'ǒ', 'ò'], toneApply c = 'o')
    ∧ (∀ c ∈ ['ū', 'ú', 'ǔ', 'ù'], toneApply c = 'u')
    ∧ (∀ c ∈ ['ǖ', 'ǘ', 'ǚ', 'ǜ', 'ü'], toneApply c = 'v')
    ∧ toneApply 'ɡ' = 'g'
    ∧ (∀ c ∈ ['ń', 'ň', 'ǹ'], toneApply c = 'n')
    ∧ (∀ c : Char, c ∉ tone_map.map Prod.fst → toneApply c = c) := by
  refine ⟨remove_tone_eq_map, ?_, by decide, by decide, by decide, by decide,
    by decide, by decide, by decide, by decide,
    fun c hc => toneApply_eq_self_of_not_mem hc⟩
  intro p
  rw [remove_tone_eq_map, List.length_map]

/-- Witness for C3 at concrete scalars: the spec scenario `nǚ ↦ nv` and a
pass-through scalar. -/
theorem remove_tone_scalarwise_witness :
    toneApply 'ǚ' = 'v' ∧ toneApply 'x' = 'x' := by
  obtain ⟨-, -, -, -, -, -, -, hv, -, -, hpass⟩ := remove_tone_scalarwise
  exact ⟨hv 'ǚ' (by decide), hpass 'x' (by decide)⟩

/-- C4: normalization is idempotent — removing tones from an already
tone-free string changes nothing. -/
theorem remove_tone_idem (p : List Char) :
    remove_tone (remove_tone p) = remove_tone p := by
  simp only [remove_tone_eq_map, List.map_map]
  exact List.map_congr_left fun c _ => toneApply_idem c

/-! ### Claim theorems: lookup shape -/

/-- C9: `get_candidates` is exactly the character-field projection of
`get_candidates_with_info`, preserving order and length, for every query
and either flag value. -/
theorem get_candidates_eq_map_info (s : LoadState) (p : List Char)
    (t : Bool) :
    get_candidates s p t = (get_candidates_with_info s p t).map Entry.char := by
  cases t <;> rfl

/-- C8: when the resolved key (the verbatim query in tone-sensitive mode,
its tone-free form otherwise) is absent from the relevant mapping, both
lookup functions return the empty list as their ordinary value. -/
theorem lookup_absent_empty (s : LoadState) (p : List Char) (t : Bool)
    (h : (if t then p else remove_tone p) ∉
      (if t then s.pinyin_dict else s.pinyin_dict_no_tone).map Prod.fst) :
    get_candidates s p t = [] ∧ get_candidates_with_info s p t = [] := by
  cases t <;>
    simp only [if_pos rfl, Bool.false_eq_true, if_neg, if_false, if_true] at h <;>
    simp [get_candidates, get_candidates_with_info,
      getD_eq_nil_of_not_mem_keys h]

/-- Witness for C8: querying a key absent from a one-record index returns
empty from both lookups. -/
theorem lookup_absent_empty_witness :
    get_candidates
        (loadData (some [ParsedLine.record
          { char := "一", pinyin := [['y', 'ī']], frequency := some 0 }]))
        ['q'] false = []
    ∧ get_candidates_with_info
        (loadData (some [ParsedLine.record
          { char := "一", pinyin := [['y', 'ī']], frequency := some 0 }]))
        ['q'] false = [] :=
  lookup_absent_empty
    (loadData (some [ParsedLine.record
      { char := "一", pinyin := [['y', 'ī']], frequency := some 0 }]))
    ['q'] false (by decide)

/-! ### Claim theorems: construction failure behaviour -/

/-- Counterexample to C1 as stated: on the missing-file input,
construction does not produce a failure result — it returns normally
with a usable instance whose two pinyin mappings are empty and on which
lookup succeeds with an empty candidate list, exactly the
silently-empty-but-successful object the claim rules out. -/
theorem missing_file_counterexample :
    (loadData none).pinyin_dict = []
    ∧ (loadData none).pinyin_dict_no_tone = []
    ∧ get_candidates (loadData none) ['y', 'i'] false = [] :=
  ⟨rfl, rfl, rfl⟩

/-- C1 amended: on a missing file the `FileNotFoundError` clause only
prints a diagnostic, so construction yields a usable instance with empty
`pinyin_dict` and `pinyin_dict_no_tone`, and every lookup on it returns
the empty list. -/
theorem missing_file_yields_empty_instance :
    loadData none = initState
    ∧ ∀ (p : List Char) (t : Bool),
        get_candidates (loadData none) p t = []
        ∧ get_candidates_with_info (loadData none) p t = [] := by
  refine ⟨rfl, fun p t => ?_⟩
  cases t <;> exact ⟨rfl, rfl⟩

/-! ### Helper lemmas: unfolding the lookups at a concrete flag -/

theorem info_true (s : LoadState) (p : List Char) :
    get_candidates_with_info s p true = getD s.pinyin_dict p := rfl

theorem info_false (s : LoadState) (p : List Char) :
    get_candidates_with_info s p false
    = getD s.pinyin_dict_no_tone (remove_tone p) := rfl

theorem cand_true (s : LoadState) (p : List Char) :
    get_candidates s p true = (getD s.pinyin_dict p).map Entry.char := rfl

theorem cand_false (s : LoadState) (p : List Char) :
    get_candidates s p false
    = (getD s.pinyin_dict_no_tone (remove_tone p)).map Entry.char := rfl

/-- `get_candidates_with_info` on the sorted state serves the stably
sorted posting list of the unsorted state. -/
theorem info_sortState (s : LoadState) (p : List Char) (t : Bool) :
    get_candidates_with_info (sortState s) p t
    = (get_candidates_with_info s p t).mergeSort freqLE := by
  cases t
  · rw [info_false, info_false, getD_sortState_nt]
  · rw [info_true, info_true, getD_sortState_pd]

/-! ### Helper lemmas: the frequency order -/

theorem freqLE_trans : ∀ a b c : Entry, freqLE a b → freqLE b c → freqLE a c := by
  intro a b c hab hbc
  simp only [freqLE, decide_eq_true_eq] at *
  omega

theorem freqLE_total : ∀ a b : Entry, freqLE a b || freqLE b a := by
  intro a b
  simp only [freqLE, Bool.or_eq_true, decide_eq_true_eq]
  omega

theorem sorted_posting (l : List Entry) :
    (l.mergeSort freqLE).Pairwise
      (fun a b : Entry => a.frequency ≤ b.frequency) := by
  have h := List.sorted_mergeSort freqLE_trans freqLE_total l
  exact h.imp fun hab => by simpa [freqLE] using hab

/-- Stability of the frequency sort: the entries at any one frequency
value keep their relative (insertion) order. -/
theorem filter_freq_mergeSort (l : List Entry) (f : Int) :
    (l.mergeSort freqLE).filter (fun e => e.frequency = f)
    = l.filter (fun e => e.frequency = f) := by
  have hall : ∀ e ∈ l.filter (fun e => e.frequency = f), e.frequency = f := by
    intro e he
    simpa using (List.mem_filter.mp he).2
  have hpw : (l.filter (fun e => e.frequency = f)).Pairwise
      (fun a b => freqLE a b) := by
    apply List.pairwise_of_forall_mem_list
    intro a ha b hb
    simp [freqLE, hall a ha, hall b hb]
  have hsub : List.Sublist (l.filter (fun e => e.frequency = f))
      (l.mergeSort freqLE) :=
    List.sublist_mergeSort freqLE_trans freqLE_total hpw (List.filter_sublist l)
  have hsub2 := hsub.filter (fun e => decide (e.frequency = f))
  rw [List.filter_eq_self.mpr
    (fun e he => by simpa using hall e (by simpa using he))] at hsub2
  have hlen : (l.filter (fun e => e.frequency = f)).length
      = ((l.mergeSort freqLE).filter (fun e => e.frequency = f)).length :=
    (((List.mergeSort_perm l freqLE).filter _).length_eq).symm
  exact (hsub2.eq_of_length hlen).symm

/-! ### Claim theorems: the built index -/

/-- C5: after a clean build, every posting list served by either lookup is
non-decreasing in frequency, and within each equal-frequency run the
relative order is exactly the insertion (ingestion) order of the unsorted
build — the sort is stable and lookup does no re-sorting. -/
theorem posting_lists_sorted_stable (lines : List ParsedLine)
    (h : noMalformed lines) (p : List Char) (t : Bool) (f : Int) :
    (get_candidates_with_info (loadData (some lines)) p t).Pairwise
      (fun a b : Entry => a.frequency ≤ b.frequency)
    ∧ (get_candidates_with_info (loadData (some lines)) p t).filter
        (fun e => e.frequency = f)
      = (get_candidates_with_info (buildState (recordsOf lines)) p t).filter
        (fun e => e.frequency = f) := by
  rw [loadData_eq_of_noMalformed lines h, info_sortState]
  exact ⟨sorted_posting _, filter_freq_mergeSort _ f⟩

/-- Witness for C5 on the two-record scenario of the spec (`一` at
frequency 0, `衣` at frequency 50, both read `yī`). -/
theorem posting_lists_sorted_stable_witness :
    (get_candidates_with_info
      (loadData (some
        [ParsedLine.record { char := "一", pinyin := [['y', 'ī']], frequency := some 0 },
         ParsedLine.record { char := "衣", pinyin := [['y', 'ī']], frequency := some 50 }]))
      ['y', 'i'] false).Pairwise
      (fun a b : Entry => a.frequency ≤ b.frequency) :=
  (posting_lists_sorted_stable _ (by decide) ['y', 'i'] false 0).1

/-- C6: completeness of the exact index — after a clean build, each
ingested record is returned by the tone-sensitive lookup under every one
of its syllables. -/
theorem exact_index_complete (lines : List ParsedLine) (r : RawRecord)
    (py : List Char) (h : noMalformed lines)
    (hr : ParsedLine.record r ∈ lines) (hpy : py ∈ r.pinyin) :
    r.char ∈ get_candidates (loadData (some lines)) py true := by
  rw [loadData_eq_of_noMalformed lines h, cand_true, getD_sortState_pd,
    List.mem_map]
  refine ⟨{ char := r.char, frequency := freqOf r, pinyin := none }, ?_, rfl⟩
  rw [List.mem_mergeSort]
  exact (mem_pd_build _ _ _).mpr ⟨r, mem_recordsOf_of_mem hr, hpy, rfl⟩

/-- Witness for C6 on a one-record file. -/
theorem exact_index_complete_witness :
    "一" ∈ get_candidates
      (loadData (some [ParsedLine.record
        { char := "一", pinyin := [['y', 'ī']], frequency := some 0 }]))
      ['y', 'ī'] true :=
  exact_index_complete
    [ParsedLine.record { char := "一", pinyin := [['y', 'ī']], frequency := some 0 }]
    { char := "一", pinyin := [['y', 'ī']], frequency := some 0 }
    ['y', 'ī'] (by decide) (by decide) (by decide)

/-- C7: the tone-free result set is the union, over the toned syllables
`t` whose tone-free form matches the query, of the tone-sensitive result
sets for `t`, with each contributed entry tagged by the toned reading it
came from — so a character reachable via two different toned readings of
the same tone-free key appears once per reading. -/
theorem tone_free_lookup_union (lines : List ParsedLine)
    (h : noMalformed lines) (q : List Char) (e : Entry) :
    e ∈ get_candidates_with_info (loadData (some lines)) q false
    ↔ ∃ t : List Char, remove_tone t = remove_tone q ∧ e.pinyin = some t
        ∧ ∃ e' ∈ get_candidates_with_info (loadData (some lines)) t true,
            e'.char = e.char ∧ e'.frequency = e.frequency := by
  rw [loadData_eq_of_noMalformed lines h]
  constructor
  · intro he
    rw [info_false, getD_sortState_nt, List.mem_mergeSort] at he
    obtain ⟨r, hr, py, hpy, hk, rfl⟩ := (mem_nt_build _ _ _).mp he
    refine ⟨py, hk, rfl,
      { char := r.char, frequency := freqOf r, pinyin := none }, ?_, rfl, rfl⟩
    rw [info_true, getD_sortState_pd, List.mem_mergeSort]
    exact (mem_pd_build _ _ _).mpr ⟨r, hr, hpy, rfl⟩
  · rintro ⟨t, hnorm, hpin, e', he', hc, hf⟩
    rw [info_true, getD_sortState_pd, List.mem_mergeSort] at he'
    obtain ⟨r, hr, hpy, rfl⟩ := (mem_pd_build _ _ _).mp he'
    rw [info_false, getD_sortState_nt, List.mem_mergeSort]
    apply (mem_nt_build _ _ _).mpr
    refine ⟨r, hr, t, hpy, hnorm, ?_⟩
    obtain ⟨ec, ef, ep⟩ := e
    simp only at hc hf hpin
    rw [← hc, ← hf, hpin]

/-- Witness for C7 on the spec scenario for `女` (read `nǚ`, tone-free key
`nv`): the tone-free lookup serves the entry tagged with its toned
reading. -/
theorem tone_free_lookup_union_witness :
    ({ char := "女", frequency := 10, pinyin := some ['n', 'ǚ'] } : Entry)
    ∈ get_candidates_with_info
        (loadData (some [ParsedLine.record
          { char := "女", pinyin := [['n', 'ǚ']], frequency := some 10 }]))
        ['n', 'v'] false := by
  refine (tone_free_lookup_union _ (by decide) _ _).mpr ?_
  refine ⟨['n', 'ǚ'], by decide, rfl,
    { char := "女", frequency := 10, pinyin := none }, ?_, rfl, rfl⟩
  rw [loadData_eq_of_noMalformed _ (by decide), info_true, getD_sortState_pd,
    List.mem_mergeSort]
  decide

/-! ### Claim theorems: malformed lines -/

theorem processLines_append_malformed :
    ∀ (pre post : List ParsedLine) (s : LoadState), noMalformed pre →
      processLines s (pre ++ ParsedLine.malformed :: post)
      = (recordsOf pre).foldl ingest s
  | [], _, s, _ => by simp [processLines, recordsOf]
  | .blank :: rest, post, s, h => by
      rw [List.cons_append, processLines,
        processLines_append_malformed rest post s
          (by simpa [noMalformed] using h)]
      simp [recordsOf]
  | .record r :: rest, post, s, h => by
      rw [List.cons_append, processLines,
        processLines_append_malformed rest post (ingest s r)
          (by simpa [noMalformed] using h)]
      simp [recordsOf]
  | .malformed :: _, _, _, h => absurd (List.mem_cons_self _ _) h

/-- Counterexample to C2 as stated: with a malformed middle line the build
is not fatal — construction returns normally and the partially filled
posting lists are served by lookup: the record before the bad line is
queryable, while the record after it was never indexed. -/
theorem malformed_not_fatal_counterexample :
    get_candidates
      (loadData (some
        [ParsedLine.record { char := "一", pinyin := [['y', 'ī']], frequency := some 0 },
         ParsedLine.malformed,
         ParsedLine.record { char := "二", pinyin := [['è', 'r']], frequency := some 1 }]))
      ['y', 'ī'] true = ["一"]
    ∧ get_candidates
      (loadData (some
        [ParsedLine.record { char := "一", pinyin := [['y', 'ī']], frequency := some 0 },
         ParsedLine.malformed,
         ParsedLine.record { char := "二", pinyin := [['è', 'r']], frequency := some 1 }]))
      ['è', 'r'] true = [] := by
  exact ⟨rfl, rfl⟩

/-- C2 amended: a malformed line aborts the ingestion loop at that line —
no later record is indexed and the final frequency sort is skipped — but
the `json.JSONDecodeError` handler only prints, so construction still
returns an instance holding the records ingested before the bad line, in
raw insertion order, and that partial index is served by lookup. -/
theorem malformed_aborts_ingestion (pre post : List ParsedLine)
    (h : noMalformed pre) :
    loadData (some (pre ++ ParsedLine.malformed :: post))
    = buildState (recordsOf pre) :=
  processLines_append_malformed pre post initState h

/-- Witness for C2 amended on a concrete two-line file. -/
theorem malformed_aborts_ingestion_witness :
    loadData (some
      [ParsedLine.record { char := "一", pinyin := [['y', 'ī']], frequency := some 0 },
       ParsedLine.malformed])
    = buildState (recordsOf
        [ParsedLine.record { char := "一", pinyin := [['y', 'ī']], frequency := some 0 }]) :=
  malformed_aborts_ingestion
    [ParsedLine.record { char := "一", pinyin := [['y', 'ī']], frequency := some 0 }]
    [] (by decide)

/-! ### Claim theorems: lookups are read-only -/

theorem dict_getitem_absent {K α : Type} [DecidableEq K] :
    ∀ (d : List (K × List α)) (k : K), k ∉ d.map Prod.fst →
      dict_getitem d k = ([], d ++ [(k, [])])
  | [], _, _ => rfl
  | (k0, vs) :: rest, k, h => by
      simp only [List.map_cons, List.mem_cons, not_or] at h
      have hne : ¬ k0 = k := fun e => h.1 e.symm
      simp [dict_getitem, hne, dict_getitem_absent rest k h.2]

/-- C10: the lookup methods are read-only — in state-passing form they
return the same instance state they were given, with the same values as
the pure lookups, because they access the mappings through `.get`; by
contrast the `defaultdict` subscript access they avoid would have
inserted an empty posting list under an absent key. -/
theorem lookups_read_only (s : LoadState) (p : List Char) (t : Bool) :
    ((get_candidatesS s p t).2 = s
      ∧ (get_candidatesS s p t).1 = get_candidates s p t)
    ∧ ((get_candidates_with_infoS s p t).2 = s
      ∧ (get_candidates_with_infoS s p t).1 = get_candidates_with_info s p t)
    ∧ ∀ (d : List (List Char × List Entry)) (k : List Char),
        k ∉ d.map Prod.fst → (dict_getitem d k).2 = d ++ [(k, [])] := by
  refine ⟨?_, ?_, fun d k hk => by rw [dict_getitem_absent d k hk]⟩ <;>
    cases t <;> exact ⟨rfl, rfl⟩

/-- Witness for C10: a lookup on the empty instance leaves it unchanged,
while the avoided subscript access would have inserted the key. -/
theorem lookups_read_only_witness :
    (get_candidatesS initState ['y', 'i'] false).2 = initState
    ∧ (dict_getitem ([] : List (List Char × List Entry)) ['y', 'i']).2
      = [(['y', 'i'], [])] := by
  obtain ⟨⟨h1, -⟩, -, h3⟩ := lookups_read_only initState ['y', 'i'] false
  exact ⟨h1, by simpa using h3 [] ['y', 'i'] (by simp)⟩

end InputMethod
